import Mathlib

/-!
Shallow embedding of the LoRaWAN multicast key-management subsystem
(lorawan-encoding keys.rs and multicast/group_setup.rs, lorawan-device
mac/multicast.rs). Bytes are modelled as Nat, 16-byte AES blocks and
4-byte addresses as lists of bytes, and the abstract crypto provider as
a structure holding an encryption and a decryption function. Stateful
pool operations are modelled by explicit state passing.
-/

set_option autoImplicit false

namespace LorawanMulticast

/-- A byte, modelled as a natural number; well-formed bytes are below 256. -/
abbrev Byte := Nat

/-- AES128 wraps a 16-byte key; modelled as the list of its bytes. -/
abbrev AES128 := List Byte

/-- The 4-byte multicast address, modelled as the list of its bytes. -/
abbrev MulticastAddr := List Byte

/-- Byte length of a multicast address, from MulticastAddr byte_len. -/
def MulticastAddr.byte_len : Nat := 4

/-- Abstraction of the CryptoFactory trait: new_enc followed by
encrypt_block is collapsed into enc, a function from the bound key and
the input block to the encrypted block; new_dec followed by
decrypt_block is collapsed into dec. -/
structure CryptoFactory where
  enc : AES128 → List Byte → List Byte
  dec : AES128 → List Byte → List Byte

/-- The key newtypes of keys.rs all wrap AES128; the wrappers carry no
behaviour of their own, so each is modelled as AES128 itself. -/
abbrev McRootKey := AES128
abbrev McKEKey := AES128
abbrev McKey := AES128
abbrev McAppSKey := AES128
abbrev McNetSKey := AES128

/-- Byte length of any of the 128-bit keys, from the byte_len methods. -/
def McKey.byte_len : Nat := 16

/-- Model of slice copy_from_slice: overwrite dst starting at offset off
with the bytes of src, leaving the rest of dst unchanged. -/
def copyFromSlice (dst : List Byte) (off : Nat) (src : List Byte) : List Byte :=
  dst.take off ++ src ++ dst.drop (off + src.length)

/-- McKEKey derive_from: encrypt the all-zero 16-byte block under the
root key (keys.rs, McKEKey impl). -/
def McKEKey.derive_from (crypto : CryptoFactory) (root_key : McRootKey) : McKEKey :=
  crypto.enc root_key (List.replicate 16 0)

/-- McKey derive_mc_app_s_key: build a zero block, set byte 0 to 0x01,
copy the address into bytes 1..5, encrypt under the McKey (keys.rs). -/
def McKey.derive_mc_app_s_key (self : McKey) (crypto : CryptoFactory)
    (mc_addr : MulticastAddr) : McAppSKey :=
  crypto.enc self (copyFromSlice ((List.replicate 16 0).set 0 0x01) 1 mc_addr)

/-- McKey derive_mc_net_s_key: identical construction with leading byte
0x02 (keys.rs). -/
def McKey.derive_mc_net_s_key (self : McKey) (crypto : CryptoFactory)
    (mc_addr : MulticastAddr) : McNetSKey :=
  crypto.enc self (copyFromSlice ((List.replicate 16 0).set 0 0x02) 1 mc_addr)

/-- The multicast Session of group_setup.rs. -/
structure Session where
  multicast_addr : MulticastAddr
  mc_net_s_key : McNetSKey
  mc_app_s_key : McAppSKey
  fcnt_down : Nat
  max_fcnt_down : Nat
  deriving DecidableEq, Repr

/-- Session new (group_setup.rs). -/
def Session.new (multicast_addr : MulticastAddr) (mc_net_s_key : McNetSKey)
    (mc_app_s_key : McAppSKey) (fcnt_down : Nat) (max_fcnt_down : Nat) : Session :=
  { multicast_addr, mc_net_s_key, mc_app_s_key, fcnt_down, max_fcnt_down }

/-- Model of u32 from_le_bytes on a 4-byte slice. -/
def fromLeBytes (l : List Byte) : Nat :=
  l.getD 0 0 + 256 * l.getD 1 0 + 65536 * l.getD 2 0 + 16777216 * l.getD 3 0

/-- The McGroupSetupReqPayload borrows a byte buffer; modelled as the
list of the bytes of the buffer. -/
abbrev McGroupSetupReqPayload := List Byte

namespace McGroupSetupReqPayload

/-- mc_group_id_header: byte 0 of the buffer. -/
def mc_group_id_header (self : McGroupSetupReqPayload) : Byte :=
  self.getD 0 0

/-- mc_addr: bytes 1..5 of the buffer. -/
def mc_addr (self : McGroupSetupReqPayload) : MulticastAddr :=
  (self.drop 1).take MulticastAddr.byte_len

/-- mc_key_encrypted: bytes 5..21 of the buffer. -/
def mc_key_encrypted (self : McGroupSetupReqPayload) : List Byte :=
  (self.drop (1 + MulticastAddr.byte_len)).take McKey.byte_len

/-- mc_key_decrypted: despite its name, applies the encrypt-shaped
primitive (new_enc / encrypt_block) under the McKEKey to the encrypted
field (group_setup.rs). -/
def mc_key_decrypted (self : McGroupSetupReqPayload) (crypto : CryptoFactory)
    (key : McKEKey) : McKey :=
  crypto.enc key (mc_key_encrypted self)

/-- derive_session_keys: recover the McKey, then derive the application
and network session keys from it and the decoded address. -/
def derive_session_keys (self : McGroupSetupReqPayload) (crypto : CryptoFactory)
    (key : McKEKey) : McAppSKey × McNetSKey :=
  let mc_key := mc_key_decrypted self crypto key
  let a := mc_addr self
  (McKey.derive_mc_app_s_key mc_key crypto a, McKey.derive_mc_net_s_key mc_key crypto a)

/-- min_mc_fcount: little-endian u32 at bytes 21..25. -/
def min_mc_fcount (self : McGroupSetupReqPayload) : Nat :=
  fromLeBytes ((self.drop (1 + MulticastAddr.byte_len + McKey.byte_len)).take 4)

/-- max_mc_fcount: little-endian u32 at bytes 25..29. -/
def max_mc_fcount (self : McGroupSetupReqPayload) : Nat :=
  fromLeBytes ((self.drop (1 + MulticastAddr.byte_len + McKey.byte_len + 4)).take 4)

/-- derive_session: the assigned group id (byte 0 widened to usize) and
the fully populated Session (group_setup.rs). -/
def derive_session (self : McGroupSetupReqPayload) (crypto : CryptoFactory)
    (key : McKEKey) : Nat × Session :=
  let p := derive_session_keys self crypto key
  (mc_group_id_header self,
   { multicast_addr := mc_addr self,
     mc_net_s_key := p.2,
     mc_app_s_key := p.1,
     fcnt_down := min_mc_fcount self,
     max_fcnt_down := max_mc_fcount self })

end McGroupSetupReqPayload

/-- The error type of the session pool (mac/multicast.rs). -/
inductive PoolError where
  | NoAvailableSlotForSession
  deriving DecidableEq, Repr

/-- Default multicast port constant DEFAULT_MC_PORT. -/
def DEFAULT_MC_PORT : Nat := 200

/-- The Multicast session pool state (mac/multicast.rs). -/
structure Multicast where
  mc_root_key : McRootKey
  mc_k_e_key : McKEKey
  port : Nat
  sessions : List (Option Session)
  deriving DecidableEq, Repr

namespace Multicast

/-- Multicast new: derive the key-encryption key from the root key,
default port, all four slots empty. -/
def new (crypto : CryptoFactory) (mc_root_key : McRootKey) : Multicast :=
  { mc_root_key,
    mc_k_e_key := McKEKey.derive_from crypto mc_root_key,
    port := DEFAULT_MC_PORT,
    sessions := [none, none, none, none] }

/-- set_port. -/
def set_port (self : Multicast) (p : Nat) : Multicast :=
  { self with port := p }

/-- port accessor. -/
def getPort (self : Multicast) : Nat :=
  self.port

/-- matching_session: find_map over the slots, returning the first
occupied slot whose stored address equals the query address; the state
is returned unchanged, as the body never writes through the borrow. -/
def matching_session (self : Multicast) (multicast_addr : MulticastAddr) :
    Option Session × Multicast :=
  (self.sessions.findSome? (fun s =>
     match s with
     | some s => if s.multicast_addr = multicast_addr then some s else none
     | none => none),
   self)

/-- Helper modelling the for-loop of add_session: walk the slots in
order and place the session in the first empty slot, returning none if
every slot is occupied. -/
def install (s : Session) : List (Option Session) → Option (List (Option Session))
  | [] => none
  | none :: rest => some (some s :: rest)
  | some t :: rest => (install s rest).map (fun l => some t :: l)

/-- add_session: first-fit installation of a fresh Session with both
frame counters 0; NoAvailableSlotForSession when the loop finds no empty
slot. -/
def add_session (self : Multicast) (multicast_addr : MulticastAddr)
    (mc_net_skey : McNetSKey) (mc_app_skey : McAppSKey) :
    Except PoolError Unit × Multicast :=
  match install (Session.new multicast_addr mc_net_skey mc_app_skey 0 0) self.sessions with
  | some l => (Except.ok (), { self with sessions := l })
  | none => (Except.error PoolError.NoAvailableSlotForSession, self)

end Multicast

/-- The operations the pool exposes to the MAC layer, for reasoning
about reachable pool states. -/
inductive Op where
  | add (addr : MulticastAddr) (nk : McNetSKey) (ak : McAppSKey)
  | setPort (p : Nat)
  | matching (addr : MulticastAddr)
  | readPort

/-- State transition of one exposed operation (read-only operations
return the state their Rust counterpart leaves behind). -/
def applyOp (m : Multicast) : Op → Multicast
  | Op.add a nk ak => (Multicast.add_session m a nk ak).2
  | Op.setPort p => Multicast.set_port m p
  | Op.matching a => (Multicast.matching_session m a).2
  | Op.readPort => m

/-- State after a sequence of exposed operations, applied left to
right. -/
def applyOps (ops : List Op) (m : Multicast) : Multicast :=
  ops.foldl applyOp m

end LorawanMulticast

namespace LorawanMulticast

/-! Concrete demonstration values used by the witness theorems. -/

/-- A concrete crypto provider for witnesses: bytewise modular addition
of key and block for encryption, subtraction for decryption. -/
def demoCrypto : CryptoFactory :=
  { enc := fun k b => List.zipWith (fun x y => (x + y) % 256) k b,
    dec := fun k b => List.zipWith (fun x y => (x + 256 - y) % 256) k b }

/-- A second concrete provider sharing the encryption function of
demoCrypto but with a different decryption function. -/
def demoCrypto2 : CryptoFactory :=
  { enc := demoCrypto.enc,
    dec := fun _ b => b }

/-- A concrete 16-byte key for witnesses. -/
def demoKey : AES128 := [4, 2, 3, 4, 5, 6, 7, 8, 9, 10, 11, 12, 13, 14, 15, 16]

/-- A concrete 29-byte group-setup request buffer for witnesses; its
group id header byte is 7, outside the range 0 to 3. -/
def demoBuf : McGroupSetupReqPayload :=
  [7] ++ [1, 2, 3, 4] ++ List.replicate 16 9 ++ [5, 0, 0, 0] ++ [9, 1, 0, 0]

/-- A concrete fully occupied pool for witnesses. -/
def demoFullPool : Multicast :=
  { mc_root_key := demoKey,
    mc_k_e_key := McKEKey.derive_from demoCrypto demoKey,
    port := 200,
    sessions := [some (Session.new [1, 2, 3, 4] demoKey demoKey 0 0),
                 some (Session.new [5, 6, 7, 8] demoKey demoKey 0 0),
                 some (Session.new [1, 2, 3, 4] demoKey demoKey 3 9),
                 some (Session.new [9, 9, 9, 9] demoKey demoKey 0 0)] }

/-- The Session that add_session builds from the arguments of one add
call: both frame counters start at 0. -/
def mkSession (t : MulticastAddr × McNetSKey × McAppSKey) : Session :=
  Session.new t.1 t.2.1 t.2.2 0 0

/-- The arguments of the add calls of an operation sequence, in call
order. -/
def addsOf : List Op → List (MulticastAddr × McNetSKey × McAppSKey)
  | [] => []
  | Op.add a nk ak :: ops => (a, nk, ak) :: addsOf ops
  | Op.setPort _ :: ops => addsOf ops
  | Op.matching _ :: ops => addsOf ops
  | Op.readPort :: ops => addsOf ops

/-- A slot list of n slots holding the sessions of l in order in its
first slots, the remaining slots empty. -/
def slotsN (n : Nat) (l : List Session) : List (Option Session) :=
  (l.take n).map some ++ List.replicate (n - l.length) none

/-- A second demo 16-byte key, distinct from demoKey. -/
def demoKeyB : AES128 := List.replicate 16 7

/-- Any list of length at least 29 splits into 29 named cells and a
tail; used to reason about buffer accessors bytewise. -/
theorem exists_cells_of_le_length (l : List Byte) (h : 29 ≤ l.length) :
    ∃ b0 b1 b2 b3 b4 b5 b6 b7 b8 b9 b10 b11 b12 b13 b14 b15 b16 b17 b18 b19 b20
      b21 b22 b23 b24 b25 b26 b27 b28 t,
      l = b0 :: b1 :: b2 :: b3 :: b4 :: b5 :: b6 :: b7 :: b8 :: b9 :: b10 :: b11 ::
          b12 :: b13 :: b14 :: b15 :: b16 :: b17 :: b18 :: b19 :: b20 :: b21 :: b22 ::
          b23 :: b24 :: b25 :: b26 :: b27 :: b28 :: t := by
  rcases l with _ | ⟨b0, _ | ⟨b1, _ | ⟨b2, _ | ⟨b3, _ | ⟨b4, _ | ⟨b5, _ | ⟨b6, _ | ⟨b7,
    _ | ⟨b8, _ | ⟨b9, _ | ⟨b10, _ | ⟨b11, _ | ⟨b12, _ | ⟨b13, _ | ⟨b14, _ | ⟨b15,
    _ | ⟨b16, _ | ⟨b17, _ | ⟨b18, _ | ⟨b19, _ | ⟨b20, _ | ⟨b21, _ | ⟨b22, _ | ⟨b23,
    _ | ⟨b24, _ | ⟨b25, _ | ⟨b26, _ | ⟨b27, _ | ⟨b28, t⟩⟩⟩⟩⟩⟩⟩⟩⟩⟩⟩⟩⟩⟩⟩⟩⟩⟩⟩⟩⟩⟩⟩⟩⟩⟩⟩⟩⟩ <;>
    simp_all

/-- C1: each key derivation is exactly one AES-128 single-block
encryption of a fixed 16-byte plaintext under the parent key: derive_from
encrypts the all-zero block, derive_mc_app_s_key the block 0x01 followed
by the 4-byte address and 11 zero bytes, derive_mc_net_s_key the same
block with leading byte 0x02; all are deterministic pure functions of
their inputs. -/
theorem C1_derivations_single_block (crypto : CryptoFactory) (root_key : McRootKey)
    (k : McKey) (a : MulticastAddr) (h : a.length = 4) :
    McKEKey.derive_from crypto root_key = crypto.enc root_key (List.replicate 16 0) ∧
    McKey.derive_mc_app_s_key k crypto a =
      crypto.enc k (0x01 :: (a ++ List.replicate 11 0)) ∧
    McKey.derive_mc_net_s_key k crypto a =
      crypto.enc k (0x02 :: (a ++ List.replicate 11 0)) := by
  obtain ⟨x, y, z, w, rfl⟩ : ∃ x y z w, a = [x, y, z, w] := by
    rcases a with _ | ⟨x, _ | ⟨y, _ | ⟨z, _ | ⟨w, _ | ⟨v, t⟩⟩⟩⟩⟩ <;> simp_all
  exact ⟨rfl, rfl, rfl⟩

/-- C1 witness: the derivations evaluated at the concrete demo provider,
demo key and address 1,2,3,4. -/
theorem C1_derivations_single_block_witness :
    ([1, 2, 3, 4] : MulticastAddr).length = 4 ∧
    (McKEKey.derive_from demoCrypto demoKey =
       demoCrypto.enc demoKey (List.replicate 16 0) ∧
     McKey.derive_mc_app_s_key demoKey demoCrypto [1, 2, 3, 4] =
       demoCrypto.enc demoKey (0x01 :: ([1, 2, 3, 4] ++ List.replicate 11 0)) ∧
     McKey.derive_mc_net_s_key demoKey demoCrypto [1, 2, 3, 4] =
       demoCrypto.enc demoKey (0x02 :: ([1, 2, 3, 4] ++ List.replicate 11 0))) :=
  ⟨by decide, C1_derivations_single_block demoCrypto demoKey demoKey [1, 2, 3, 4] (by decide)⟩

end LorawanMulticast

namespace LorawanMulticast

/-- C2: derive_session_keys recovers the McKey by one application of the
encrypt-shaped primitive to bytes 5..21 of the buffer under the
key-encryption key, then derives the session-key pair from the recovered
McKey and the decoded address; moreover every operation of the subsystem
that takes a crypto provider depends only on the encryption function of
the provider, never on its decryption function. -/
theorem C2_derive_session_keys_encrypt_only (crypto : CryptoFactory) (key : McKEKey)
    (buf : McGroupSetupReqPayload) (h : 29 ≤ buf.length) :
    McGroupSetupReqPayload.derive_session_keys buf crypto key =
      (McKey.derive_mc_app_s_key (crypto.enc key ((buf.drop 5).take 16)) crypto
         ((buf.drop 1).take 4),
       McKey.derive_mc_net_s_key (crypto.enc key ((buf.drop 5).take 16)) crypto
         ((buf.drop 1).take 4)) ∧
    (∀ crypto2 : CryptoFactory, crypto2.enc = crypto.enc →
      McGroupSetupReqPayload.derive_session_keys buf crypto2 key =
        McGroupSetupReqPayload.derive_session_keys buf crypto key ∧
      McGroupSetupReqPayload.derive_session buf crypto2 key =
        McGroupSetupReqPayload.derive_session buf crypto key ∧
      McKEKey.derive_from crypto2 key = McKEKey.derive_from crypto key ∧
      (∀ k a, McKey.derive_mc_app_s_key k crypto2 a = McKey.derive_mc_app_s_key k crypto a ∧
              McKey.derive_mc_net_s_key k crypto2 a = McKey.derive_mc_net_s_key k crypto a)) := by
  refine ⟨rfl, fun crypto2 he => ?_⟩
  simp [McGroupSetupReqPayload.derive_session_keys, McGroupSetupReqPayload.derive_session,
        McGroupSetupReqPayload.mc_key_decrypted, McKEKey.derive_from,
        McKey.derive_mc_app_s_key, McKey.derive_mc_net_s_key, he]

/-- C2 witness: the characterization evaluated on the concrete demo
buffer, provider and key; demoCrypto2 shares the encryption function of
demoCrypto but has a different decryption function. -/
theorem C2_derive_session_keys_encrypt_only_witness :
    29 ≤ demoBuf.length ∧
    (McGroupSetupReqPayload.derive_session_keys demoBuf demoCrypto demoKey =
      (McKey.derive_mc_app_s_key (demoCrypto.enc demoKey ((demoBuf.drop 5).take 16)) demoCrypto
         ((demoBuf.drop 1).take 4),
       McKey.derive_mc_net_s_key (demoCrypto.enc demoKey ((demoBuf.drop 5).take 16)) demoCrypto
         ((demoBuf.drop 1).take 4)) ∧
    (∀ crypto2 : CryptoFactory, crypto2.enc = demoCrypto.enc →
      McGroupSetupReqPayload.derive_session_keys demoBuf crypto2 demoKey =
        McGroupSetupReqPayload.derive_session_keys demoBuf demoCrypto demoKey ∧
      McGroupSetupReqPayload.derive_session demoBuf crypto2 demoKey =
        McGroupSetupReqPayload.derive_session demoBuf demoCrypto demoKey ∧
      McKEKey.derive_from crypto2 demoKey = McKEKey.derive_from demoCrypto demoKey ∧
      (∀ k a, McKey.derive_mc_app_s_key k crypto2 a = McKey.derive_mc_app_s_key k demoCrypto a ∧
              McKey.derive_mc_net_s_key k crypto2 a = McKey.derive_mc_net_s_key k demoCrypto a))) :=
  ⟨by decide, C2_derive_session_keys_encrypt_only demoCrypto demoKey demoBuf (by decide)⟩

/-- C6: derive_session returns the group id header byte widened to an
unsigned integer, with no validation against the range 0 to 3, together
with a Session whose address is the decoded address, whose keys are the
output of derive_session_keys, and whose frame counters are
min_mc_fcount and max_mc_fcount. -/
theorem C6_derive_session_fields (crypto : CryptoFactory) (key : McKEKey)
    (buf : McGroupSetupReqPayload) (h : 29 ≤ buf.length) :
    (McGroupSetupReqPayload.derive_session buf crypto key).1 =
      McGroupSetupReqPayload.mc_group_id_header buf ∧
    (McGroupSetupReqPayload.derive_session buf crypto key).2 =
      { multicast_addr := McGroupSetupReqPayload.mc_addr buf,
        mc_net_s_key := (McGroupSetupReqPayload.derive_session_keys buf crypto key).2,
        mc_app_s_key := (McGroupSetupReqPayload.derive_session_keys buf crypto key).1,
        fcnt_down := McGroupSetupReqPayload.min_mc_fcount buf,
        max_fcnt_down := McGroupSetupReqPayload.max_mc_fcount buf } :=
  ⟨rfl, rfl⟩

/-- C6 witness: evaluated on the demo buffer, whose group id header byte
is 7, outside the range 0 to 3, showing the absence of validation. -/
theorem C6_derive_session_fields_witness :
    29 ≤ demoBuf.length ∧
    ((McGroupSetupReqPayload.derive_session demoBuf demoCrypto demoKey).1 =
       McGroupSetupReqPayload.mc_group_id_header demoBuf ∧
     (McGroupSetupReqPayload.derive_session demoBuf demoCrypto demoKey).2 =
       { multicast_addr := McGroupSetupReqPayload.mc_addr demoBuf,
         mc_net_s_key := (McGroupSetupReqPayload.derive_session_keys demoBuf demoCrypto demoKey).2,
         mc_app_s_key := (McGroupSetupReqPayload.derive_session_keys demoBuf demoCrypto demoKey).1,
         fcnt_down := McGroupSetupReqPayload.min_mc_fcount demoBuf,
         max_fcnt_down := McGroupSetupReqPayload.max_mc_fcount demoBuf }) :=
  ⟨by decide, C6_derive_session_fields demoCrypto demoKey demoBuf (by decide)⟩

end LorawanMulticast

namespace LorawanMulticast

/-- C7: on any buffer of at least 29 bytes the decoder projections are
byte-exact: the group id header is byte 0, the address is bytes 1..5,
min_mc_fcount and max_mc_fcount are the little-endian interpretations of
bytes 21..25 and 25..29; and all four accessors ignore trailing bytes,
agreeing with their value on the first 29 bytes alone. -/
theorem C7_decoder_projections (buf : McGroupSetupReqPayload) (h : 29 ≤ buf.length) :
    McGroupSetupReqPayload.mc_group_id_header buf = buf.getD 0 0 ∧
    McGroupSetupReqPayload.mc_addr buf =
      [buf.getD 1 0, buf.getD 2 0, buf.getD 3 0, buf.getD 4 0] ∧
    McGroupSetupReqPayload.min_mc_fcount buf =
      buf.getD 21 0 + 256 * buf.getD 22 0 + 65536 * buf.getD 23 0 +
        16777216 * buf.getD 24 0 ∧
    McGroupSetupReqPayload.max_mc_fcount buf =
      buf.getD 25 0 + 256 * buf.getD 26 0 + 65536 * buf.getD 27 0 +
        16777216 * buf.getD 28 0 ∧
    McGroupSetupReqPayload.mc_group_id_header buf =
      McGroupSetupReqPayload.mc_group_id_header (buf.take 29) ∧
    McGroupSetupReqPayload.mc_addr buf = McGroupSetupReqPayload.mc_addr (buf.take 29) ∧
    McGroupSetupReqPayload.mc_key_encrypted buf =
      McGroupSetupReqPayload.mc_key_encrypted (buf.take 29) ∧
    McGroupSetupReqPayload.min_mc_fcount buf =
      McGroupSetupReqPayload.min_mc_fcount (buf.take 29) ∧
    McGroupSetupReqPayload.max_mc_fcount buf =
      McGroupSetupReqPayload.max_mc_fcount (buf.take 29) := by
  obtain ⟨b0, b1, b2, b3, b4, b5, b6, b7, b8, b9, b10, b11, b12, b13, b14, b15, b16,
    b17, b18, b19, b20, b21, b22, b23, b24, b25, b26, b27, b28, t, rfl⟩ :=
    exists_cells_of_le_length buf h
  exact ⟨rfl, rfl, rfl, rfl, rfl, rfl, rfl, rfl, rfl⟩

/-- C7 witness: the projections evaluated on the demo buffer extended by
three trailing bytes. -/
theorem C7_decoder_projections_witness :
    29 ≤ (demoBuf ++ [250, 251, 252]).length ∧
    (McGroupSetupReqPayload.mc_group_id_header (demoBuf ++ [250, 251, 252]) =
       (demoBuf ++ [250, 251, 252]).getD 0 0 ∧
     McGroupSetupReqPayload.mc_addr (demoBuf ++ [250, 251, 252]) =
       [(demoBuf ++ [250, 251, 252]).getD 1 0, (demoBuf ++ [250, 251, 252]).getD 2 0,
        (demoBuf ++ [250, 251, 252]).getD 3 0, (demoBuf ++ [250, 251, 252]).getD 4 0] ∧
     McGroupSetupReqPayload.min_mc_fcount (demoBuf ++ [250, 251, 252]) =
       (demoBuf ++ [250, 251, 252]).getD 21 0 + 256 * (demoBuf ++ [250, 251, 252]).getD 22 0 +
         65536 * (demoBuf ++ [250, 251, 252]).getD 23 0 +
         16777216 * (demoBuf ++ [250, 251, 252]).getD 24 0 ∧
     McGroupSetupReqPayload.max_mc_fcount (demoBuf ++ [250, 251, 252]) =
       (demoBuf ++ [250, 251, 252]).getD 25 0 + 256 * (demoBuf ++ [250, 251, 252]).getD 26 0 +
         65536 * (demoBuf ++ [250, 251, 252]).getD 27 0 +
         16777216 * (demoBuf ++ [250, 251, 252]).getD 28 0 ∧
     McGroupSetupReqPayload.mc_group_id_header (demoBuf ++ [250, 251, 252]) =
       McGroupSetupReqPayload.mc_group_id_header ((demoBuf ++ [250, 251, 252]).take 29) ∧
     McGroupSetupReqPayload.mc_addr (demoBuf ++ [250, 251, 252]) =
       McGroupSetupReqPayload.mc_addr ((demoBuf ++ [250, 251, 252]).take 29) ∧
     McGroupSetupReqPayload.mc_key_encrypted (demoBuf ++ [250, 251, 252]) =
       McGroupSetupReqPayload.mc_key_encrypted ((demoBuf ++ [250, 251, 252]).take 29) ∧
     McGroupSetupReqPayload.min_mc_fcount (demoBuf ++ [250, 251, 252]) =
       McGroupSetupReqPayload.min_mc_fcount ((demoBuf ++ [250, 251, 252]).take 29) ∧
     McGroupSetupReqPayload.max_mc_fcount (demoBuf ++ [250, 251, 252]) =
       McGroupSetupReqPayload.max_mc_fcount ((demoBuf ++ [250, 251, 252]).take 29)) :=
  ⟨by decide, C7_decoder_projections (demoBuf ++ [250, 251, 252]) (by decide)⟩

end LorawanMulticast

namespace LorawanMulticast

/-- The install loop fails exactly when every slot is occupied. -/
theorem install_eq_none_iff (s : Session) (l : List (Option Session)) :
    Multicast.install s l = none ↔ ∀ o ∈ l, o.isSome := by
  induction l with
  | nil => simp [Multicast.install]
  | cons o rest ih =>
    cases o with
    | none => simp [Multicast.install]
    | some t => simpa [Multicast.install] using ih

/-- The install loop succeeds exactly when some slot is empty. -/
theorem install_isSome_iff (s : Session) (l : List (Option Session)) :
    (Multicast.install s l).isSome ↔ none ∈ l := by
  induction l with
  | nil => simp [Multicast.install]
  | cons o rest ih =>
    cases o with
    | none => simp [Multicast.install]
    | some t => simpa [Multicast.install] using ih

/-- The install loop writes the new session into the first empty slot,
leaving all other slots untouched. -/
theorem install_first_fit (s : Session) (l : List (Option Session)) (i : Nat)
    (hi : l[i]? = some none)
    (hbefore : ∀ j, j < i → ∀ o, l[j]? = some o → o.isSome) :
    Multicast.install s l = some (l.set i (some s)) := by
  induction l generalizing i with
  | nil => simp at hi
  | cons o rest ih =>
    cases o with
    | none =>
      cases i with
      | zero => simp [Multicast.install]
      | succ i2 =>
        have := hbefore 0 (Nat.succ_pos i2) none (by simp)
        simp at this
    | some t =>
      cases i with
      | zero => simp at hi
      | succ i2 =>
        have hrec := ih i2 (by simpa using hi)
          (fun j hj o ho => hbefore (j + 1) (Nat.succ_lt_succ hj) o (by simpa using ho))
        simp [Multicast.install, hrec]

/-- C3: add_session installs a fresh Session with both frame counters 0
into the first empty slot and returns Ok, fails with
NoAvailableSlotForSession exactly when all slots are occupied regardless
of the stored addresses, succeeds exactly when some slot is empty (so
emptying any one slot of a pool makes a subsequent call succeed), and
from a fresh pool four adds fill the four slots so that a fifth add
fails. -/
theorem C3_add_session_first_fit (m : Multicast) (addr : MulticastAddr)
    (nk : McNetSKey) (ak : McAppSKey) :
    ((Multicast.add_session m addr nk ak).1 =
        Except.error PoolError.NoAvailableSlotForSession ↔ ∀ o ∈ m.sessions, o.isSome) ∧
    ((Multicast.add_session m addr nk ak).1 = Except.ok () ↔ none ∈ m.sessions) ∧
    (∀ i, m.sessions[i]? = some none →
      (∀ j, j < i → ∀ o, m.sessions[j]? = some o → o.isSome) →
      (Multicast.add_session m addr nk ak).1 = Except.ok () ∧
      (Multicast.add_session m addr nk ak).2.sessions =
        m.sessions.set i (some (Session.new addr nk ak 0 0)) ∧
      (Multicast.add_session m addr nk ak).2.port = m.port) ∧
    (∀ i, i < m.sessions.length →
      (Multicast.add_session { m with sessions := m.sessions.set i none } addr nk ak).1 =
        Except.ok ()) ∧
    (∀ crypto rk a1 a2 a3 a4 n1 n2 n3 n4 p1 p2 p3 p4,
      (Multicast.add_session
        (applyOps [Op.add a1 n1 p1, Op.add a2 n2 p2, Op.add a3 n3 p3, Op.add a4 n4 p4]
          (Multicast.new crypto rk)) addr nk ak).1 =
        Except.error PoolError.NoAvailableSlotForSession) := by
  refine ⟨?_, ?_, ?_, ?_, ?_⟩
  · rw [← install_eq_none_iff (Session.new addr nk ak 0 0) m.sessions]
    unfold Multicast.add_session
    cases h : Multicast.install (Session.new addr nk ak 0 0) m.sessions <;> simp [h]
  · rw [← install_isSome_iff (Session.new addr nk ak 0 0) m.sessions]
    unfold Multicast.add_session
    cases h : Multicast.install (Session.new addr nk ak 0 0) m.sessions <;> simp [h]
  · intro i hi hbefore
    have h := install_first_fit (Session.new addr nk ak 0 0) m.sessions i hi hbefore
    unfold Multicast.add_session
    simp [h]
  · intro i hlen
    have hmem : (none : Option Session) ∈ m.sessions.set i none := by
      have h0 : (m.sessions.set i none)[i]? = some none := by
        simp [List.getElem?_set_self, hlen]
      obtain ⟨hlt, he⟩ := List.getElem?_eq_some.mp h0
      have hm := List.getElem_mem hlt
      rwa [he] at hm
    have hins : (Multicast.install (Session.new addr nk ak 0 0) (m.sessions.set i none)).isSome :=
      (install_isSome_iff _ _).mpr hmem
    unfold Multicast.add_session
    cases h : Multicast.install (Session.new addr nk ak 0 0) (m.sessions.set i none) <;>
      simp_all
  · intro crypto rk a1 a2 a3 a4 n1 n2 n3 n4 p1 p2 p3 p4
    rfl

/-- C3 witness: on a fresh concrete pool the first add succeeds into
slot 0, and with the listed duplicate-address adds the fifth call
fails. -/
theorem C3_add_session_first_fit_witness :
    ((Multicast.new demoCrypto demoKey).sessions[0]? = some none ∧
     (Multicast.add_session (Multicast.new demoCrypto demoKey) [1, 2, 3, 4]
        demoKey demoKey).1 = Except.ok () ∧
     (Multicast.add_session (Multicast.new demoCrypto demoKey) [1, 2, 3, 4]
        demoKey demoKey).2.sessions =
       (Multicast.new demoCrypto demoKey).sessions.set 0
         (some (Session.new [1, 2, 3, 4] demoKey demoKey 0 0)) ∧
     (Multicast.add_session (Multicast.new demoCrypto demoKey) [1, 2, 3, 4]
        demoKey demoKey).2.port = (Multicast.new demoCrypto demoKey).port) ∧
    (Multicast.add_session
       (applyOps [Op.add [1, 2, 3, 4] demoKey demoKey, Op.add [1, 2, 3, 4] demoKey demoKey,
                  Op.add [1, 2, 3, 4] demoKey demoKey, Op.add [1, 2, 3, 4] demoKey demoKey]
         (Multicast.new demoCrypto demoKey)) [1, 2, 3, 4] demoKey demoKey).1 =
      Except.error PoolError.NoAvailableSlotForSession := by
  have h := C3_add_session_first_fit (Multicast.new demoCrypto demoKey) [1, 2, 3, 4]
    demoKey demoKey
  refine ⟨⟨by decide, ?_⟩, ?_⟩
  · have h3 := h.2.2.1 0 (by decide) (by intro j hj o ho; omega)
    exact ⟨h3.1, h3.2.1, h3.2.2⟩
  · exact h.2.2.2.2 demoCrypto demoKey [1, 2, 3, 4] [1, 2, 3, 4] [1, 2, 3, 4] [1, 2, 3, 4]
      demoKey demoKey demoKey demoKey demoKey demoKey demoKey demoKey

end LorawanMulticast

namespace LorawanMulticast

/-- First-match characterization of the find_map scan over the slots:
either no occupied slot matches and the scan yields none, or there is a
slot index holding a matching session such that every earlier occupied
slot does not match, and the scan yields that session. -/
theorem findSome_first_match (a : MulticastAddr) (l : List (Option Session)) :
    (l.findSome? (fun s =>
        match s with
        | some s => if s.multicast_addr = a then some s else none
        | none => none) = none ∧
      ∀ (i : Nat) (s : Session), l[i]? = some (some s) → s.multicast_addr ≠ a) ∨
    (∃ (i : Nat) (s : Session), l[i]? = some (some s) ∧ s.multicast_addr = a ∧
      l.findSome? (fun s =>
        match s with
        | some s => if s.multicast_addr = a then some s else none
        | none => none) = some s ∧
      ∀ (j : Nat) (t : Session), j < i → l[j]? = some (some t) → t.multicast_addr ≠ a) := by
  induction l with
  | nil =>
    left
    constructor
    · rfl
    · intro i s h
      simp at h
  | cons o rest ih =>
    cases o with
    | none =>
      rcases ih with ⟨hn, hall⟩ | ⟨i, s, hi, ha, hf, hmin⟩
      · left
        refine ⟨by simpa [List.findSome?_cons] using hn, ?_⟩
        intro i s h
        cases i with
        | zero => simp at h
        | succ i2 => exact hall i2 s (by simpa using h)
      · right
        refine ⟨i + 1, s, by simpa using hi, ha, by simpa [List.findSome?_cons] using hf, ?_⟩
        intro j t hj ht
        cases j with
        | zero => simp at ht
        | succ j2 => exact hmin j2 t (Nat.lt_of_succ_lt_succ hj) (by simpa using ht)
    | some s0 =>
      by_cases h0 : s0.multicast_addr = a
      · right
        refine ⟨0, s0, by simp, h0, ?_, ?_⟩
        · simp [List.findSome?_cons, h0]
        · intro j t hj
          omega
      · rcases ih with ⟨hn, hall⟩ | ⟨i, s, hi, ha, hf, hmin⟩
        · left
          refine ⟨by simpa [List.findSome?_cons, h0] using hn, ?_⟩
          intro i s h
          cases i with
          | zero =>
            simp at h
            rw [← h]
            exact h0
          | succ i2 => exact hall i2 s (by simpa using h)
        · right
          refine ⟨i + 1, s, by simpa using hi, ha,
            by simpa [List.findSome?_cons, h0] using hf, ?_⟩
          intro j t hj ht
          cases j with
          | zero =>
            simp at ht
            rw [← ht]
            exact h0
          | succ j2 => exact hmin j2 t (Nat.lt_of_succ_lt_succ hj) (by simpa using ht)

/-- C5: matching_session is a linear scan in slot order: it returns the
session stored in the first occupied slot whose address equals the query
address byte for byte, and none exactly when no occupied slot matches. -/
theorem C5_matching_session_first_match (m : Multicast) (a : MulticastAddr) :
    ((Multicast.matching_session m a).1 = none ∧
      ∀ (i : Nat) (s : Session), m.sessions[i]? = some (some s) → s.multicast_addr ≠ a) ∨
    (∃ (i : Nat) (s : Session), m.sessions[i]? = some (some s) ∧ s.multicast_addr = a ∧
      (Multicast.matching_session m a).1 = some s ∧
      ∀ (j : Nat) (t : Session), j < i → m.sessions[j]? = some (some t) →
        t.multicast_addr ≠ a) :=
  findSome_first_match a m.sessions

/-- C8: pool operations are atomic and lookups are pure: for every pool
state in which add_session reports NoAvailableSlotForSession the entire
pool state, slots and port included, is exactly as before the call; and
for every pool state and every address, unconditionally, matching_session
leaves the entire pool state unchanged. -/
theorem C8_error_leaves_state_unchanged (m : Multicast) (addr a : MulticastAddr)
    (nk : McNetSKey) (ak : McAppSKey) :
    ((Multicast.add_session m addr nk ak).1 =
        Except.error PoolError.NoAvailableSlotForSession →
      (Multicast.add_session m addr nk ak).2 = m) ∧
    (Multicast.matching_session m a).2 = m := by
  refine ⟨fun h => ?_, rfl⟩
  unfold Multicast.add_session at h ⊢
  cases hi : Multicast.install (Session.new addr nk ak 0 0) m.sessions <;> simp_all

end LorawanMulticast

namespace LorawanMulticast

/-- C8 witness: on the concrete full pool the failing add and a lookup
both leave the state exactly as it was, and a lookup on a fresh,
non-full pool also leaves the state unchanged. -/
theorem C8_error_leaves_state_unchanged_witness :
    ((Multicast.add_session demoFullPool [2, 2, 2, 2] demoKey demoKey).1 =
       Except.error PoolError.NoAvailableSlotForSession ∧
     (Multicast.add_session demoFullPool [2, 2, 2, 2] demoKey demoKey).2 = demoFullPool ∧
     (Multicast.matching_session demoFullPool [1, 2, 3, 4]).2 = demoFullPool) ∧
    (Multicast.matching_session (Multicast.new demoCrypto demoKey) [1, 2, 3, 4]).2 =
      Multicast.new demoCrypto demoKey :=
  ⟨⟨rfl,
    (C8_error_leaves_state_unchanged demoFullPool [2, 2, 2, 2] [1, 2, 3, 4]
      demoKey demoKey).1 rfl,
    (C8_error_leaves_state_unchanged demoFullPool [2, 2, 2, 2] [1, 2, 3, 4]
      demoKey demoKey).2⟩,
   (C8_error_leaves_state_unchanged (Multicast.new demoCrypto demoKey) [2, 2, 2, 2]
     [1, 2, 3, 4] demoKey demoKey).2⟩

/-- A successful install never disturbs an occupied slot. -/
theorem install_preserves_occupied (s t : Session) :
    ∀ (l l2 : List (Option Session)) (i : Nat), Multicast.install s l = some l2 →
      l[i]? = some (some t) → l2[i]? = some (some t) := by
  intro l
  induction l with
  | nil =>
    intro l2 i h ht
    simp [Multicast.install] at h
  | cons o rest ih =>
    intro l2 i h ht
    cases o with
    | none =>
      simp [Multicast.install] at h
      cases i with
      | zero => simp at ht
      | succ i2 =>
        rw [← h]
        simpa using ht
    | some t0 =>
      simp [Multicast.install] at h
      obtain ⟨r, hr, rfl⟩ := h
      cases i with
      | zero => simpa using ht
      | succ i2 => simpa using ih r i2 hr (by simpa using ht)

/-- A single exposed operation never disturbs an occupied slot. -/
theorem applyOp_preserves_occupied (m : Multicast) (op : Op) (i : Nat) (t : Session)
    (ht : m.sessions[i]? = some (some t)) :
    (applyOp m op).sessions[i]? = some (some t) := by
  cases op with
  | add a nk ak =>
    cases h : Multicast.install (Session.new a nk ak 0 0) m.sessions with
    | none => simpa [applyOp, Multicast.add_session, h] using ht
    | some l2 =>
      simpa [applyOp, Multicast.add_session, h] using
        install_preserves_occupied _ t m.sessions l2 i h ht
  | setPort p => simpa [applyOp, Multicast.set_port] using ht
  | matching a => simpa [applyOp, Multicast.matching_session] using ht
  | readPort => simpa [applyOp] using ht

/-- Any sequence of exposed operations never disturbs an occupied
slot. -/
theorem applyOps_preserves_occupied (ops : List Op) (m : Multicast) (i : Nat) (t : Session)
    (ht : m.sessions[i]? = some (some t)) :
    (applyOps ops m).sessions[i]? = some (some t) := by
  induction ops generalizing m with
  | nil => exact ht
  | cons op ops ih => exact ih (applyOp m op) (applyOp_preserves_occupied m op i t ht)

/-- C9: no eviction: in any pool state reached from a fresh pool by a
sequence of exposed operations, a slot that holds a session keeps
holding that very session, with its address, keys and counters
unchanged, across every further sequence of exposed operations; in
particular the set of occupied slots is monotonically non-decreasing. -/
theorem C9_no_eviction (crypto : CryptoFactory) (rk : McRootKey) (ops more : List Op)
    (i : Nat) (s : Session)
    (h : (applyOps ops (Multicast.new crypto rk)).sessions[i]? = some (some s)) :
    (applyOps more (applyOps ops (Multicast.new crypto rk))).sessions[i]? =
      some (some s) :=
  applyOps_preserves_occupied more (applyOps ops (Multicast.new crypto rk)) i s h

/-- C9 witness: a concrete session installed in slot 0 survives a port
change, a second add and a lookup, unchanged. -/
theorem C9_no_eviction_witness :
    (applyOps [Op.add [1, 2, 3, 4] demoKey demoKey]
        (Multicast.new demoCrypto demoKey)).sessions[0]? =
      some (some (Session.new [1, 2, 3, 4] demoKey demoKey 0 0)) ∧
    (applyOps [Op.setPort 7, Op.add [5, 6, 7, 8] demoKey demoKey, Op.matching [1, 2, 3, 4]]
        (applyOps [Op.add [1, 2, 3, 4] demoKey demoKey]
          (Multicast.new demoCrypto demoKey))).sessions[0]? =
      some (some (Session.new [1, 2, 3, 4] demoKey demoKey 0 0)) :=
  ⟨rfl, C9_no_eviction demoCrypto demoKey [Op.add [1, 2, 3, 4] demoKey demoKey]
    [Op.setPort 7, Op.add [5, 6, 7, 8] demoKey demoKey, Op.matching [1, 2, 3, 4]]
    0 (Session.new [1, 2, 3, 4] demoKey demoKey 0 0) rfl⟩

/-- A single exposed operation never changes the stored root key or the
derived key-encryption key. -/
theorem applyOp_preserves_keys (m : Multicast) (op : Op) :
    (applyOp m op).mc_k_e_key = m.mc_k_e_key ∧
    (applyOp m op).mc_root_key = m.mc_root_key := by
  cases op with
  | add a nk ak =>
    cases h : Multicast.install (Session.new a nk ak 0 0) m.sessions <;>
      simp [applyOp, Multicast.add_session, h]
  | setPort p => exact ⟨rfl, rfl⟩
  | matching a => exact ⟨rfl, rfl⟩
  | readPort => exact ⟨rfl, rfl⟩

/-- Any sequence of exposed operations never changes the stored root key
or the derived key-encryption key. -/
theorem applyOps_preserves_keys (ops : List Op) (m : Multicast) :
    (applyOps ops m).mc_k_e_key = m.mc_k_e_key ∧
    (applyOps ops m).mc_root_key = m.mc_root_key := by
  induction ops generalizing m with
  | nil => exact ⟨rfl, rfl⟩
  | cons op ops ih =>
    have h1 := applyOp_preserves_keys m op
    have h2 := ih (applyOp m op)
    exact ⟨h2.1.trans h1.1, h2.2.trans h1.2⟩

/-- C10: the constructor stores the key-encryption key derived from the
root key, the default port 200 and four empty slots, and since no
exposed operation modifies the root key or the key-encryption key, the
derivation equality holds in every reachable pool state. -/
theorem C10_constructor_invariant (crypto : CryptoFactory) (rk : McRootKey) :
    (Multicast.new crypto rk).mc_k_e_key = McKEKey.derive_from crypto rk ∧
    (Multicast.new crypto rk).mc_root_key = rk ∧
    (Multicast.new crypto rk).port = 200 ∧
    (Multicast.new crypto rk).sessions = [none, none, none, none] ∧
    ∀ ops : List Op,
      (applyOps ops (Multicast.new crypto rk)).mc_k_e_key = McKEKey.derive_from crypto rk ∧
      (applyOps ops (Multicast.new crypto rk)).mc_root_key = rk := by
  refine ⟨rfl, rfl, rfl, rfl, fun ops => ?_⟩
  have h := applyOps_preserves_keys ops (Multicast.new crypto rk)
  exact ⟨h.1, h.2⟩

theorem slotsN_nil (n : Nat) : slotsN n [] = List.replicate n none := by
  simp [slotsN]

theorem slotsN_cons (n : Nat) (s : Session) (l : List Session) :
    slotsN (n + 1) (s :: l) = some s :: slotsN n l := by
  simp [slotsN, Nat.succ_sub_succ]

/-- Once the installed list is as long as the slot count, further
sessions fall off the end of the slot list. -/
theorem slotsN_append_ge (n : Nat) (l x : List Session) (h : n ≤ l.length) :
    slotsN n (l ++ x) = slotsN n l := by
  have h2 : n - l.length = 0 := by omega
  simp [slotsN, List.take_append_of_le_length h, h2]
  omega

/-- The install loop on a compact slot list appends the new session to
the installed list when there is room and fails otherwise. -/
theorem install_slotsN (s : Session) :
    ∀ (l : List Session) (n : Nat),
      Multicast.install s (slotsN n l) =
        if l.length < n then some (slotsN n (l ++ [s])) else none := by
  intro l
  induction l with
  | nil =>
    intro n
    cases n with
    | zero => simp [slotsN_nil, Multicast.install]
    | succ k =>
      simp [slotsN_nil, List.replicate_succ, Multicast.install, slotsN]
  | cons s0 l2 ih =>
    intro n
    cases n with
    | zero => simp [slotsN, Multicast.install]
    | succ k =>
      rw [slotsN_cons k s0 l2]
      have : Multicast.install s (some s0 :: slotsN k l2) =
          (Multicast.install s (slotsN k l2)).map (fun r => some s0 :: r) := rfl
      rw [this, ih k]
      by_cases hlt : l2.length < k
      · simp [hlt, Nat.succ_lt_succ hlt, ← slotsN_cons k s0 (l2 ++ [s])]
      · have : ¬ (s0 :: l2).length < k + 1 := by simp; omega
        simp [hlt, this]

/-- Replicated empty slots contribute nothing to the scan. -/
theorem findSome_replicate_none (a : MulticastAddr) (n : Nat) :
    (List.replicate n (none : Option Session)).findSome? (fun s =>
      match s with
      | some s => if s.multicast_addr = a then some s else none
      | none => none) = none := by
  induction n with
  | zero => rfl
  | succ k ih => simpa [List.replicate_succ, List.findSome?_cons] using ih

/-- On a compact slot list the scan of matching_session agrees with the
first match over the installed sessions in installation order. -/
theorem findSome_slotsN (a : MulticastAddr) :
    ∀ (l : List Session) (n : Nat),
      (slotsN n l).findSome? (fun s =>
        match s with
        | some s => if s.multicast_addr = a then some s else none
        | none => none) =
      (l.take n).find? (fun s => decide (s.multicast_addr = a)) := by
  intro l
  induction l with
  | nil =>
    intro n
    simp [slotsN_nil, findSome_replicate_none]
  | cons s0 l2 ih =>
    intro n
    cases n with
    | zero => simp [slotsN]
    | succ k =>
      rw [slotsN_cons k s0 l2, List.take_succ_cons]
      by_cases h0 : s0.multicast_addr = a
      · simp [List.findSome?_cons, List.find?_cons, h0]
      · simpa [List.findSome?_cons, List.find?_cons, h0] using ih k

/-- Starting from a compact pool, any operation sequence leaves the pool
compact, holding the previously installed sessions followed by the
sessions of the add calls in call order, truncated to the capacity. -/
theorem applyOps_slots :
    ∀ (ops : List Op) (m : Multicast) (l : List Session),
      m.sessions = slotsN 4 l →
      (applyOps ops m).sessions = slotsN 4 (l ++ (addsOf ops).map mkSession) := by
  intro ops
  induction ops with
  | nil =>
    intro m l hm
    simpa [applyOps, addsOf] using hm
  | cons op ops ih =>
    intro m l hm
    have hstep : applyOps (op :: ops) m = applyOps ops (applyOp m op) := rfl
    cases op with
    | add a nk ak =>
      rw [hstep]
      have hinst := install_slotsN (Session.new a nk ak 0 0) l 4
      by_cases hlt : l.length < 4
      · have h1 : (applyOp m (Op.add a nk ak)).sessions =
            slotsN 4 (l ++ [Session.new a nk ak 0 0]) := by
          simp [applyOp, Multicast.add_session, hm, hinst, hlt]
        have := ih (applyOp m (Op.add a nk ak)) (l ++ [Session.new a nk ak 0 0]) h1
        simpa [addsOf, mkSession] using this
      · have h1 : (applyOp m (Op.add a nk ak)).sessions = slotsN 4 l := by
          simp [applyOp, Multicast.add_session, hm, hinst, hlt]
        have := ih (applyOp m (Op.add a nk ak)) l h1
        rw [this]
        rw [show (addsOf (Op.add a nk ak :: ops)).map mkSession =
          Session.new a nk ak 0 0 :: (addsOf ops).map mkSession from rfl]
        rw [slotsN_append_ge 4 l _ (by omega), slotsN_append_ge 4 l _ (by omega)]
    | setPort p =>
      rw [hstep]
      exact ih (applyOp m (Op.setPort p)) l hm
    | matching a =>
      rw [hstep]
      exact ih (applyOp m (Op.matching a)) l hm
    | readPort =>
      rw [hstep]
      exact ih (applyOp m Op.readPort) l hm

/-- C4 counterexample: from a fresh pool, install two sessions with the
same address but different keys; the most recently installed session
with that address is the second one, sitting in slot 1, yet
matching_session returns the first one, so the claim as stated is
false. -/
theorem C4_counterexample_first_not_most_recent :
    (applyOps [Op.add [1, 2, 3, 4] demoKey demoKey, Op.add [1, 2, 3, 4] demoKeyB demoKeyB]
        (Multicast.new demoCrypto demoKey)).sessions =
      [some (Session.new [1, 2, 3, 4] demoKey demoKey 0 0),
       some (Session.new [1, 2, 3, 4] demoKeyB demoKeyB 0 0), none, none] ∧
    (Multicast.matching_session
        (applyOps [Op.add [1, 2, 3, 4] demoKey demoKey, Op.add [1, 2, 3, 4] demoKeyB demoKeyB]
          (Multicast.new demoCrypto demoKey)) [1, 2, 3, 4]).1 =
      some (Session.new [1, 2, 3, 4] demoKey demoKey 0 0) ∧
    Session.new [1, 2, 3, 4] demoKey demoKey 0 0 ≠
      Session.new [1, 2, 3, 4] demoKeyB demoKeyB 0 0 :=
  ⟨rfl, rfl, by decide⟩

/-- C4 amended: in every pool state reachable from a fresh pool,
matching_session returns the session LEAST recently installed with the
queried address: the first match, in installation order, among the at
most 4 sessions the add calls of the history successfully installed; or
none when no installed session has that address. -/
theorem C4_matching_returns_least_recently_installed (crypto : CryptoFactory)
    (rk : McRootKey) (ops : List Op) (a : MulticastAddr) :
    (Multicast.matching_session (applyOps ops (Multicast.new crypto rk)) a).1 =
      (((addsOf ops).map mkSession).take 4).find?
        (fun s => decide (s.multicast_addr = a)) := by
  have hs : (applyOps ops (Multicast.new crypto rk)).sessions =
      slotsN 4 ((addsOf ops).map mkSession) := by
    simpa using applyOps_slots ops (Multicast.new crypto rk) [] rfl
  have := findSome_slotsN a ((addsOf ops).map mkSession) 4
  simpa [Multicast.matching_session, hs] using this

end LorawanMulticast
